import Mathlib

/-!
Verification development for the mlc-village-recon-tool core
(`src/App.tsx`): schema introspection (`getColumns` / `register`),
field selection (`chooseField`), photo-value formatting
(`formatPhotoValue`), folder provisioning (`ensureFolder`), file-name
construction (`buildTargetFileName`), the chunked upload engine
(`uploadOne`) and the submission payload assembly (`submit`).

Machine strings are Lean `String`s, remote state is passed
explicitly, and the network is modelled by the observable sequence of
calls each operation issues.
-/

namespace MlcRecon

/-! ### Association lists

JavaScript object maps (`byLower`, `typeByName`, `metaByName`,
`choicesByName`) are modelled as insertion-ordered association lists.
`lookupA` is property read (first binding wins, matching the guarded
first-registration writes used for `byLower`); `setA` is property
assignment (overwrite in place, append when absent). -/

def lookupA {α : Type} : List (String × α) → String → Option α
  | [], _ => none
  | (k, v) :: rest, key => if key = k then some v else lookupA rest key

def setA {α : Type} (m : List (String × α)) (key : String) (v : α) : List (String × α) :=
  if (lookupA m key).isSome then
    m.map (fun p => if p.1 = key then (key, v) else p)
  else
    m ++ [(key, v)]

/-! ### String helpers from the source

`jsNatString` is JavaScript `String(n)` for a natural number,
`pad2` is `String(n).padStart(2, "0")`, `trimSlashes` is the
`replace(/^\/+|\/+$/g, "")` helper, and the three alias transforms
mirror the regex replaces in `getColumns`. -/

def digitChar (d : Nat) : Char := Char.ofNat (48 + d)

/-- Decimal digits of `n`, least significant first.  The first
argument is fuel bounding the number of digits (any `fuel > n`
behaves identically); structural recursion on it keeps the function
kernel-reducible. -/
def natDigitsRevF : Nat → Nat → List Char
  | 0, _ => []
  | fuel + 1, n =>
    if n < 10 then [digitChar n]
    else digitChar (n % 10) :: natDigitsRevF fuel (n / 10)

def natDigitsRev (n : Nat) : List Char := natDigitsRevF (n + 1) n

def jsNatString (n : Nat) : String := String.mk (natDigitsRev n).reverse

def pad2 (n : Nat) : String :=
  let s := jsNatString n
  if s.length < 2 then String.mk (List.replicate (2 - s.length) '0') ++ s else s

/-- JavaScript `s.trim()` (ASCII whitespace), implemented over the
character list so that it evaluates by kernel reduction. -/
def jsTrim (s : String) : String :=
  String.mk (((s.toList.dropWhile Char.isWhitespace).reverse.dropWhile
    Char.isWhitespace).reverse)

/-- JavaScript `s.toLowerCase()` (ASCII), over the character list. -/
def jsToLower (s : String) : String :=
  String.mk (s.toList.map Char.toLower)

def isSlash (c : Char) : Bool := c = '/'

def trimSlashes (s : String) : String :=
  String.mk (((s.toList.dropWhile isSlash).reverse.dropWhile isSlash).reverse)

/-- `combined.split("/")`: split at every slash, keeping empty segments. -/
def splitSlash : List Char → List (List Char)
  | [] => [[]]
  | c :: cs =>
    match splitSlash cs with
    | [] => [[]]
    | seg :: rest => if c = '/' then [] :: seg :: rest else (c :: seg) :: rest

/-- One pass of a JavaScript global regex replace of the form
`replace(/X+/g, rep)`: every maximal run of characters satisfying `p`
becomes the single character `rep`.  The boolean records whether the
previous character was inside a run. -/
def replaceRunsGo (p : Char → Bool) (rep : Char) : Bool → List Char → List Char
  | _, [] => []
  | inRun, c :: cs =>
    if p c then
      if inRun then replaceRunsGo p rep true cs
      else rep :: replaceRunsGo p rep true cs
    else c :: replaceRunsGo p rep false cs

def replaceRuns (p : Char → Bool) (rep : Char) (l : List Char) : List Char :=
  replaceRunsGo p rep false l

/-- `internalName.replace(/_/g, " ")`. -/
def underscoresToSpaces (s : String) : String :=
  String.mk (s.toList.map (fun c => if c = '_' then ' ' else c))

/-- `name.replace(/[^a-z0-9]/gi, "")`. -/
def stripNonAlnum (s : String) : String :=
  String.mk (s.toList.filter Char.isAlphanum)

/-- `displayName.replace(/\s+/g, "")`. -/
def removeWhitespace (s : String) : String :=
  String.mk (s.toList.filter (fun c => !c.isWhitespace))

/-- The normalisation applied by `register`: `toStr(key).trim().toLowerCase()`. -/
def normKey (s : String) : String := jsToLower (jsTrim s)

/-! ### Schema introspection (`getColumns`) -/

/-- A column descriptor as returned by the metadata API: `name` is the
internal name, and the boolean/option fields record which
type-specific sub-schema object is present on the JSON payload. -/
structure RawColumn where
  name : String := ""
  displayName : String := ""
  readOnly : Bool := false
  hidden : Bool := false
  hyperlinkOrPicture : Bool := false
  text : Bool := false
  number : Bool := false
  dateTime : Bool := false
  boolean : Bool := false
  choice : Option (List String) := none
  multiChoice : Option (List String) := none
  lookupField : Bool := false

structure ColumnsState where
  byLower : List (String × String) := []
  typeByName : List (String × String) := []
  choicesByName : List (String × List String) := []
  metaByName : List (String × (Bool × Bool)) := []

/-- The `register` closure of `getColumns`: normalise the key, skip it
when empty or already present (first registration wins), otherwise
append the binding. -/
def register (byLower : List (String × String)) (key internal : String) :
    List (String × String) :=
  if normKey key = "" then byLower
  else if (lookupA byLower (normKey key)).isSome then byLower
  else byLower ++ [(normKey key, internal)]

def registerAll (byLower : List (String × String)) (keys : List String)
    (internal : String) : List (String × String) :=
  keys.foldl (fun m k => register m k internal) byLower

/-- The raw (pre-normalisation) strings `getColumns` passes to
`register` for one column, in call order: the internal name verbatim,
with underscores replaced by spaces, and with non-alphanumerics
stripped; then, when the display name is non-empty, the display name
verbatim, with whitespace removed, and with non-alphanumerics
stripped. -/
def rawKeys (c : RawColumn) : List String :=
  [c.name, underscoresToSpaces c.name, stripNonAlnum c.name] ++
    (if c.displayName ≠ "" then
      [c.displayName, removeWhitespace c.displayName, stripNonAlnum c.displayName]
    else [])

/-- The normalised, non-empty alias keys one column contributes. -/
def colKeys (c : RawColumn) : List String :=
  ((rawKeys c).map normKey).filter (fun k => k ≠ "")

/-- `Array.from(new Set(xs))`: deduplicate keeping first occurrences. -/
def dedupFirst (l : List String) (seen : List String := []) : List String :=
  match l with
  | [] => []
  | x :: xs => if x ∈ seen then dedupFirst xs seen else x :: dedupFirst xs (x :: seen)

/-- `(choices ?? []).map(c => toStr(c).trim()).filter(Boolean)` then
dedup via `Set`. -/
def cleanChoices (raw : List String) : List String :=
  dedupFirst ((raw.map jsTrim).filter (fun s => s ≠ ""))

/-- Classification of one column into `typeByName`, following the
if/else chain in `getColumns`. -/
def columnKind (c : RawColumn) : String :=
  if c.hyperlinkOrPicture then "hyperlinkOrPicture"
  else if c.text then "text"
  else if c.number then "number"
  else if c.dateTime then "dateTime"
  else if c.boolean then "boolean"
  else if c.choice.isSome then "choice"
  else if c.multiChoice.isSome then "multiChoice"
  else if c.lookupField then "lookup"
  else "unknown"

/-- The body of `getColumns`' per-column loop. -/
def processColumn (st : ColumnsState) (c : RawColumn) : ColumnsState :=
  if c.name = "" then st
  else
    { byLower := registerAll st.byLower (rawKeys c) c.name
      typeByName := setA st.typeByName c.name (columnKind c)
      choicesByName :=
        if c.hyperlinkOrPicture || c.text || c.number || c.dateTime || c.boolean then
          st.choicesByName
        else
          match c.choice with
          | some raw => setA st.choicesByName c.name (cleanChoices raw)
          | none =>
            match c.multiChoice with
            | some raw => setA st.choicesByName c.name (cleanChoices raw)
            | none => st.choicesByName
      metaByName := setA st.metaByName c.name (c.readOnly, c.hidden) }

/-- `getColumns`, restricted to its pure part: fold the per-column
loop over the column list returned by the metadata call. -/
def getColumns (cols : List RawColumn) : ColumnsState :=
  cols.foldl processColumn {}

/-! ### Field selection (`chooseField`) -/

def chooseField (byLower : List (String × String))
    (metaByName : List (String × (Bool × Bool)))
    (candidates : List String) (requireWritable : Bool) : Option String :=
  match candidates with
  | [] => none
  | cand :: rest =>
    match lookupA byLower (jsToLower cand) with
    | none => chooseField byLower metaByName rest requireWritable
    | some hit =>
      if requireWritable && ((lookupA metaByName hit).getD (false, false)).1 then
        chooseField byLower metaByName rest requireWritable
      else if ((lookupA metaByName hit).getD (false, false)).2 then
        chooseField byLower metaByName rest requireWritable
      else some hit

/-! ### Photo value formatting (`formatPhotoValue`) and JSON

`JSON.stringify` on an array of strings is embedded character by
character (`stringifyChars`), together with an ordinary JSON
string-array parser used to state the round-trip property. -/

def hexDigitChar (n : Nat) : Char :=
  Char.ofNat (if n < 10 then 48 + n else 87 + n)

/-- How `JSON.stringify` escapes one character of a string. -/
def escapeChar (c : Char) : List Char :=
  if c = '"' then ['\\', '"']
  else if c = '\\' then ['\\', '\\']
  else if c = Char.ofNat 8 then ['\\', 'b']
  else if c = Char.ofNat 9 then ['\\', 't']
  else if c = Char.ofNat 10 then ['\\', 'n']
  else if c = Char.ofNat 12 then ['\\', 'f']
  else if c = Char.ofNat 13 then ['\\', 'r']
  else if c.toNat < 32 then
    ['\\', 'u', '0', '0', hexDigitChar (c.toNat / 16), hexDigitChar (c.toNat % 16)]
  else [c]

def escapeList : List Char → List Char
  | [] => []
  | c :: cs => escapeChar c ++ escapeList cs

def encodeStringChars (s : List Char) : List Char := '"' :: escapeList s ++ ['"']

def joinEncoded : List (List Char) → List Char
  | [] => []
  | s :: ss => ',' :: encodeStringChars s ++ joinEncoded ss

def stringifyChars : List (List Char) → List Char
  | [] => ['[', ']']
  | s :: ss => '[' :: encodeStringChars s ++ joinEncoded ss ++ [']']

/-- `JSON.stringify(urls)` for an array of strings. -/
def jsonStringify (urls : List String) : String :=
  String.mk (stringifyChars (urls.map String.toList))

def unescapeSimple (e : Char) : Option Char :=
  if e = '"' then some '"'
  else if e = '\\' then some '\\'
  else if e = '/' then some '/'
  else if e = 'b' then some (Char.ofNat 8)
  else if e = 't' then some (Char.ofNat 9)
  else if e = 'n' then some (Char.ofNat 10)
  else if e = 'f' then some (Char.ofNat 12)
  else if e = 'r' then some (Char.ofNat 13)
  else none

def hexVal (c : Char) : Option Nat :=
  if 48 ≤ c.toNat ∧ c.toNat ≤ 57 then some (c.toNat - 48)
  else if 97 ≤ c.toNat ∧ c.toNat ≤ 102 then some (c.toNat - 87)
  else if 65 ≤ c.toNat ∧ c.toNat ≤ 70 then some (c.toNat - 55)
  else none

/-- Parse the body of a JSON string (the part after the opening
quote): returns the decoded characters and the input remaining after
the closing quote. -/
def parseStringBody : List Char → Option (List Char × List Char)
  | [] => none
  | c :: rest =>
    if c = '"' then some ([], rest)
    else if c = '\\' then
      match rest with
      | [] => none
      | e :: rest2 =>
        if e = 'u' then
          match rest2 with
          | a :: b :: c2 :: d :: rest3 =>
            match hexVal a, hexVal b, hexVal c2, hexVal d with
            | some ha, some hb, some hc, some hd =>
              (parseStringBody rest3).map
                (fun p => (Char.ofNat (((ha * 16 + hb) * 16 + hc) * 16 + hd) :: p.1, p.2))
            | _, _, _, _ => none
          | _ => none
        else
          match unescapeSimple e with
          | some u => (parseStringBody rest2).map (fun p => (u :: p.1, p.2))
          | none => none
    else (parseStringBody rest).map (fun p => (c :: p.1, p.2))

/-- Parse the items of a JSON string array, positioned just after the
opening quote of the next string; fuelled to keep recursion
structural. -/
def parseItemsF : Nat → List Char → Option (List (List Char))
  | 0, _ => none
  | fuel + 1, l =>
    match parseStringBody l with
    | none => none
    | some (s, r) =>
      match r with
      | [']'] => some [s]
      | ',' :: '"' :: r2 => (parseItemsF fuel r2).map (fun ss => s :: ss)
      | _ => none

/-- Parse a complete JSON array of strings (whole-input parse). -/
def parseStringArray (s : String) : Option (List String) :=
  match s.toList with
  | ['[', ']'] => some []
  | '[' :: '"' :: rest => (parseItemsF rest.length rest).map (fun ss => ss.map String.mk)
  | _ => none

def formatPhotoValue (typeByName : List (String × String)) (fieldName : String)
    (urls : List String) : String :=
  match lookupA typeByName fieldName with
  | some t => if t = "hyperlinkOrPicture" then urls.headD "" else jsonStringify urls
  | none => jsonStringify urls

/-! ### Folder provisioning (`ensureFolder`)

The remote drive is modelled as the set (list) of folder paths that
exist; reading a path succeeds exactly when it is in the store, and a
create call against the parent's children collection adds the path.
`ensureWalk` returns the updated store together with the list of
paths for which a create call was issued, in order. -/

structure Stamp where
  year : Nat
  monthIdx : Nat

structure EnsureResult where
  store : List String
  creates : List String
  suffix : String

def ensureWalk (store : List String) (segs : List String) (parentPath : String) :
    List String × List String :=
  match segs with
  | [] => (store, [])
  | raw :: rest =>
    let segment := jsTrim raw
    if segment = "" then ensureWalk store rest parentPath
    else
      let currentPath := if parentPath = "" then segment else parentPath ++ "/" ++ segment
      if currentPath ∈ store then
        ensureWalk store rest currentPath
      else
        let r := ensureWalk (currentPath :: store) rest currentPath
        (r.1, currentPath :: r.2)

def ensureFolder (store : List String) (baseFolderPath : String) (st : Stamp) :
    EnsureResult :=
  let year := jsNatString st.year
  let month := pad2 (st.monthIdx + 1)
  let combined := String.mk
    (replaceRuns isSlash '/'
      (trimSlashes (baseFolderPath ++ "/" ++ year ++ "/" ++ month)).toList)
  let w := ensureWalk store ((splitSlash combined.toList).map String.mk) ""
  ⟨w.1, w.2, year ++ "/" ++ month⟩

/-! ### Target file names (`buildTargetFileName`) -/

structure Stamp6 where
  year : Nat
  monthIdx : Nat
  day : Nat
  hour : Nat
  minute : Nat
  second : Nat

/-- The 14-character compact timestamp prefix. -/
def timestampStr (st : Stamp6) : String :=
  jsNatString st.year ++ pad2 (st.monthIdx + 1) ++ pad2 st.day ++ pad2 st.hour ++
    pad2 st.minute ++ pad2 st.second

/-- `name.lastIndexOf('.')` split: `(slice(0, dot), slice(dot + 1))`,
or `(name, "")` when there is no dot. -/
def splitExtChars : List Char → List Char × List Char
  | [] => ([], [])
  | c :: cs =>
    if cs.contains '.' then
      let r := splitExtChars cs
      (c :: r.1, r.2)
    else if c = '.' then ([], cs)
    else (c :: cs, [])

def splitExtension (name : String) : String × String :=
  let p := splitExtChars name.toList
  (String.mk p.1, String.mk p.2)

/-- The `sanitize` closure: trim, replace runs of non-alphanumerics
with a single hyphen, collapse hyphen runs, strip leading and trailing
hyphens, then cap at 60 characters. -/
def sanitize (s : String) : String :=
  let l1 := replaceRuns (fun c => !c.isAlphanum) '-' (jsTrim s).toList
  let l2 := replaceRuns (fun c => c = '-') '-' l1
  let l3 := ((l2.dropWhile (fun c => c = '-')).reverse.dropWhile (fun c => c = '-')).reverse
  String.mk (l3.take 60)

/-- `parts.join('_')`. -/
def joinUnderscore : List String → String
  | [] => ""
  | [p] => p
  | p :: rest => p ++ "_" ++ joinUnderscore rest

/-- `buildTargetFileName(file, villageValue, stamp)`; the file name is
`none` when `file?.name` is nullish (`toStr(file?.name, 'photo')`). -/
def buildTargetFileName (fileName : Option String) (villageValue : String)
    (st : Stamp6) : String :=
  let originalName := fileName.getD "photo"
  let be := splitExtension originalName
  let parts := ([villageValue, be.1].map sanitize).filter (fun p => p ≠ "")
  let safeBase := if parts.isEmpty then "upload" else joinUnderscore parts
  let safeExt := if be.2 = "" then "" else "." ++ jsToLower be.2
  timestampStr st ++ "_" ++ safeBase ++ safeExt

/-! ### Upload engine (`uploadOne`)

The engine is modelled by the sequence of remote calls it issues.
Chunk responses are an oracle `resp : Nat → Nat × String` giving the
HTTP status and response body of the `i`-th chunk PUT. -/

def chunkSize : Nat := 5 * 1024 * 1024

/-- `fetch`'s `Response.ok`: status in the inclusive range 200–299. -/
def resOk (s : Nat) : Bool := 200 ≤ s && s ≤ 299

/-- A chunk PUT is accepted unless
`!res.ok && ![200,201,202].includes(res.status)`. -/
def chunkAccepted (s : Nat) : Bool :=
  resOk s || (s == 200 || s == 201 || s == 202)

/-- The `Content-Range: bytes <start>-<end-1>/<total>` header value. -/
def contentRange (start e total : Nat) : String :=
  "bytes " ++ jsNatString start ++ "-" ++ jsNatString (e - 1) ++ "/" ++ jsNatString total

inductive UploadCall where
  | putContent
  | createSession
  | putChunk (range : Nat × Nat) (header : String)
  | getFinal
  deriving Repr, DecidableEq

inductive UploadResult where
  | ok
  | chunkError (status : Nat) (body : String)
  deriving Repr, DecidableEq

/-- The byte ranges `[start, end)` the chunk loop slices, from cursor
position `start`; fuelled structural recursion (the cursor advances by
at least one byte per iteration, so `size - start` fuel always
suffices). -/
def chunkRangesF : Nat → Nat → Nat → List (Nat × Nat)
  | 0, _, _ => []
  | fuel + 1, size, start =>
    if start < size then
      (start, min (start + chunkSize) size) ::
        chunkRangesF fuel size (min (start + chunkSize) size)
    else []

def chunkRanges (size start : Nat) : List (Nat × Nat) :=
  chunkRangesF (size - start) size start

/-- The chunk loop of `uploadOne`: while the cursor is below the file
size, slice the next chunk, PUT it, and advance the cursor only when
the response is accepted; a rejected response aborts with the status
and body. -/
def uploadSessionLoopF : Nat → Nat → (Nat → Nat × String) → Nat → Nat →
    List UploadCall × UploadResult
  | 0, _, _, _, _ => ([], .ok)
  | fuel + 1, size, resp, i, start =>
    if start < size then
      let e := min (start + chunkSize) size
      let call := UploadCall.putChunk (start, e) (contentRange start e size)
      if chunkAccepted (resp i).1 then
        let r := uploadSessionLoopF fuel size resp (i + 1) e
        (call :: r.1, r.2)
      else ([call], .chunkError (resp i).1 (resp i).2)
    else ([], .ok)

def uploadSessionLoop (size : Nat) (resp : Nat → Nat × String) (i start : Nat) :
    List UploadCall × UploadResult :=
  uploadSessionLoopF (size - start) size resp i start

/-- The observable call trace of `uploadOne` for a file of `size`
bytes: at most `3_999_999` bytes goes through the single direct
content write, anything larger opens an upload session, runs the
chunk loop, and on success fetches the final item metadata by path. -/
def uploadOneCalls (size : Nat) (resp : Nat → Nat × String) :
    List UploadCall × UploadResult :=
  if size ≤ 3999999 then ([.putContent], .ok)
  else
    let r := uploadSessionLoop size resp 0 0
    match r.2 with
    | .ok => (.createSession :: r.1 ++ [.getFinal], .ok)
    | e => (.createSession :: r.1, e)

/-! ### Payload assembly (`submit`, steps 4 and 8)

The candidate lists are the literal ones in `submit`; the payload is
the insertion-ordered field map it builds.  Field values (which come
from uploads and the form) are inputs here; `none` models the fatal
`ConfigurationError` thrown when no photo column resolves. -/

def titleCandidates : List String := ["Title"]
def villageCandidates : List String := ["Village"]
def notesCandidates : List String := ["Notes", "Note", "Description"]
def capturedOnCandidates : List String := ["CapturedOn", "Captured On", "Captured_On"]
def photoCandidates : List String := ["PhotoUrl", "PhotoUrL", "Photo URL", "Photo_Url"]

def assemblePayload (byLower : List (String × String))
    (metaByName : List (String × (Bool × Bool)))
    (titleVal villageVal notesVal isoDate photoVal : String) :
    Option (List (String × String)) :=
  let titleName := (chooseField byLower metaByName titleCandidates true).getD "Title"
  let villageName := chooseField byLower metaByName villageCandidates true
  let notesName := chooseField byLower metaByName notesCandidates true
  let capturedOnName := chooseField byLower metaByName capturedOnCandidates true
  match chooseField byLower metaByName photoCandidates true with
  | none => none
  | some photoName =>
    let f1 := [(titleName, titleVal)]
    let f2 := f1 ++ (match villageName with | some n => [(n, villageVal)] | none => [])
    let f3 := f2 ++ (match notesName with | some n => [(n, notesVal)] | none => [])
    let f4 := f3 ++ (match capturedOnName with | some n => [(n, isoDate)] | none => [])
    some (f4 ++ [(photoName, photoVal)])

/-! ## Lemmas about association lists and registration -/

theorem lookupA_append_left {α : Type} {m1 : List (String × α)} {k : String} {v : α}
    (m2 : List (String × α)) (h : lookupA m1 k = some v) :
    lookupA (m1 ++ m2) k = some v := by
  induction m1 with
  | nil => simp [lookupA] at h
  | cons p rest ih =>
    obtain ⟨pk, pv⟩ := p
    simp only [lookupA] at h
    simp only [List.cons_append, lookupA]
    split at h
    · simp [*]
    · rw [if_neg (by assumption)]
      exact ih h

theorem lookupA_append_none {α : Type} {m1 : List (String × α)} {k : String}
    (m2 : List (String × α)) (h : lookupA m1 k = none) :
    lookupA (m1 ++ m2) k = lookupA m2 k := by
  induction m1 with
  | nil => simp [lookupA]
  | cons p rest ih =>
    obtain ⟨pk, pv⟩ := p
    simp only [lookupA] at h
    simp only [List.cons_append, lookupA]
    split at h
    · exact absurd h (by simp)
    · rw [if_neg (by assumption)]
      exact ih h

theorem register_preserve {m : List (String × String)} {k : String} {v : String}
    (key n : String) (h : lookupA m k = some v) :
    lookupA (register m key n) k = some v := by
  unfold register
  split
  · exact h
  · split
    · exact h
    · exact lookupA_append_left _ h

theorem lookupA_append_single_ne {α : Type} (m : List (String × α)) {k k2 : String}
    (v : α) (h : k ≠ k2) : lookupA (m ++ [(k2, v)]) k = lookupA m k := by
  induction m with
  | nil => simp [lookupA, h]
  | cons p rest ih =>
    obtain ⟨pk, pv⟩ := p
    simp only [List.cons_append, lookupA]
    split <;> simp [ih]

theorem register_other {m : List (String × String)} {k : String}
    {key : String} (n : String) (hne : normKey key ≠ k) :
    lookupA (register m key n) k = lookupA m k := by
  unfold register
  split
  · rfl
  · split
    · rfl
    · exact lookupA_append_single_ne m n (fun h => hne h.symm)

theorem register_set {m : List (String × String)} {k : String}
    {key : String} (n : String) (hnone : lookupA m k = none) (hk : k ≠ "")
    (hkey : normKey key = k) :
    lookupA (register m key n) k = some n := by
  unfold register
  rw [hkey, if_neg hk, hnone]
  simp only [Option.isSome_none, Bool.false_eq_true, if_false]
  rw [lookupA_append_none _ hnone]
  simp [lookupA]

theorem registerAll_preserve {k : String} {v : String} (keys : List String)
    (m : List (String × String)) (n : String) (h : lookupA m k = some v) :
    lookupA (registerAll m keys n) k = some v := by
  induction keys generalizing m with
  | nil => exact h
  | cons key rest ih =>
    simp only [registerAll, List.foldl_cons] at ih ⊢
    exact ih _ (register_preserve key n h)

theorem registerAll_set {k : String} (keys : List String)
    (m : List (String × String)) (n : String)
    (hmem : k ∈ keys.map normKey) (hk : k ≠ "") (hnone : lookupA m k = none) :
    lookupA (registerAll m keys n) k = some n := by
  induction keys generalizing m with
  | nil => simp at hmem
  | cons key rest ih =>
    simp only [registerAll, List.foldl_cons] at ih ⊢
    by_cases hkey : normKey key = k
    · exact registerAll_preserve rest _ n (register_set n hnone hk hkey)
    · have hmem' : k ∈ rest.map normKey := by
        simp only [List.map_cons, List.mem_cons] at hmem
        exact hmem.resolve_left (fun h => hkey h.symm)
      exact ih _ hmem' (by rw [register_other n hkey]; exact hnone)

theorem colKeys_mem {c : RawColumn} {k : String} (h : k ∈ colKeys c) :
    k ∈ (rawKeys c).map normKey ∧ k ≠ "" := by
  unfold colKeys at h
  rw [List.mem_filter] at h
  exact ⟨h.1, by simpa using h.2⟩

theorem processColumn_byLower_preserve {k v : String} (st : ColumnsState)
    (c : RawColumn) (h : lookupA st.byLower k = some v) :
    lookupA (processColumn st c).byLower k = some v := by
  unfold processColumn
  split
  · exact h
  · exact registerAll_preserve _ _ _ h

theorem foldl_byLower_preserve {k v : String} (cols : List RawColumn)
    (st : ColumnsState) (h : lookupA st.byLower k = some v) :
    lookupA (cols.foldl processColumn st).byLower k = some v := by
  induction cols generalizing st with
  | nil => exact h
  | cons c rest ih =>
    exact ih _ (processColumn_byLower_preserve st c h)

theorem processColumn_byLower_set {k : String} (st : ColumnsState) (c : RawColumn)
    (hn : c.name ≠ "") (hk : k ∈ colKeys c) (hnone : lookupA st.byLower k = none) :
    lookupA (processColumn st c).byLower k = some c.name := by
  obtain ⟨hmem, hne⟩ := colKeys_mem hk
  unfold processColumn
  rw [if_neg hn]
  exact registerAll_set _ _ _ hmem hne hnone

/-! ## C4: first registration wins -/

/-- **C4.** For every column listing in which two columns produce the
same normalized alias key, the alias index maps that key to the
internal name of the column listed first, and no later registration
for the same key ever overwrites it: if no column before `c` registers
the key `k` and `k` is one of `c`'s alias keys, then after processing
any further columns `more` the index still maps `k` to `c`'s internal
name. -/
theorem C4_first_registration_wins (cols : List RawColumn) (c : RawColumn)
    (more : List RawColumn) (k : String) (hn : c.name ≠ "") (hk : k ∈ colKeys c)
    (h0 : lookupA (getColumns cols).byLower k = none) :
    lookupA (getColumns (cols ++ c :: more)).byLower k = some c.name := by
  unfold getColumns at h0 ⊢
  rw [List.foldl_append, List.foldl_cons]
  exact foldl_byLower_preserve more _ (processColumn_byLower_set _ c hn hk h0)

/-- Witness for C4: the key `status` collides between columns
`Status` (listed first) and `STATUS`; the index keeps `Status`. -/
theorem C4_first_registration_wins_witness :
    lookupA (getColumns ([] ++ { name := "Status" } :: [{ name := "STATUS" }])).byLower
      "status" = some "Status" :=
  C4_first_registration_wins [] { name := "Status" } [{ name := "STATUS" }] "status"
    (by decide) (by decide) rfl

/-! ## C3: alias-variant resolution -/

def colsC3 : List RawColumn := [{ name := "foobar" }, { name := "foo_bar" }]

/-- **C3, counterexample.**  The candidates `foo_bar` and `foobar`
differ only in non-alphanumeric punctuation (they agree after
stripping non-alphanumerics), yet against a column listing containing
both internal names they resolve to two different internal names,
because first-registration-wins key collisions steal the stripped
variant.  Moreover the display name does not receive the
underscores-to-spaces transform: with display name `a_b`, the key
`a b` is not registered at all. -/
theorem C3_alias_variants_counterexample :
    stripNonAlnum "foo_bar" = stripNonAlnum "foobar" ∧
    chooseField (getColumns colsC3).byLower (getColumns colsC3).metaByName
      ["foo_bar"] false = some "foo_bar" ∧
    chooseField (getColumns colsC3).byLower (getColumns colsC3).metaByName
      ["foobar"] false = some "foobar" ∧
    ("foo_bar" : String) ≠ "foobar" ∧
    lookupA (getColumns [{ name := "X", displayName := "a_b" }]).byLower "a b" =
      none := by
  decide

/-- **C3, amended.**  For a single (hence collision-free) non-hidden
column, every candidate whose lower-cased form equals one of the
column's registered alias keys — the internal name verbatim, with
underscores replaced by spaces, or with non-alphanumerics stripped,
and the display name verbatim, with whitespace removed, or with
non-alphanumerics stripped, all trimmed and lower-cased — resolves to
that column's internal name; in particular all such variants resolve
to the same internal name regardless of letter case. -/
theorem C3_alias_variants_resolve (c : RawColumn) (cand : String)
    (hn : c.name ≠ "") (hhid : c.hidden = false)
    (hk : jsToLower cand ∈ colKeys c) :
    chooseField (getColumns [c]).byLower (getColumns [c]).metaByName [cand] false =
      some c.name := by
  have hset : lookupA (getColumns [c]).byLower (jsToLower cand) = some c.name := by
    show lookupA (processColumn {} c).byLower (jsToLower cand) = some c.name
    exact processColumn_byLower_set {} c hn hk rfl
  have hmeta : lookupA (getColumns [c]).metaByName c.name =
      some (c.readOnly, c.hidden) := by
    show lookupA (processColumn {} c).metaByName c.name = _
    unfold processColumn
    rw [if_neg hn]
    simp [setA, lookupA]
  simp [chooseField, hset, hmeta, hhid]

/-- Witness for C3 (amended): `FOO BAR` (a case variant of the
underscores-to-spaces transform of the internal name `Foo_Bar`)
resolves to `Foo_Bar`. -/
theorem C3_alias_variants_resolve_witness :
    chooseField (getColumns [{ name := "Foo_Bar", displayName := "Foo Bar" }]).byLower
      (getColumns [{ name := "Foo_Bar", displayName := "Foo Bar" }]).metaByName
      ["FOO BAR"] false = some "Foo_Bar" :=
  C3_alias_variants_resolve { name := "Foo_Bar", displayName := "Foo Bar" } "FOO BAR"
    (by decide) rfl (by decide)

/-! ## C5: `selectField` with `requireWritable` -/

/-- **C5.** `chooseField` with `requireWritable = true` never returns
the internal name of a column whose metadata marks it read-only or
hidden; its result is the internal name matched by the first usable
candidate (all earlier candidates are unusable), or none. -/
theorem C5_requireWritable_never_readonly_or_hidden
    (byLower : List (String × String)) (metaByName : List (String × (Bool × Bool)))
    (cands : List String) (n : String)
    (h : chooseField byLower metaByName cands true = some n) :
    (∀ ro hid, lookupA metaByName n = some (ro, hid) → ro = false ∧ hid = false) ∧
    ∃ pre c post, cands = pre ++ c :: post ∧
      chooseField byLower metaByName [c] true = some n ∧
      ∀ c2 ∈ pre, chooseField byLower metaByName [c2] true = none := by
  induction cands with
  | nil => simp [chooseField] at h
  | cons cand rest ih =>
    rw [chooseField] at h
    cases hl : lookupA byLower (jsToLower cand) with
    | none =>
      rw [hl] at h
      obtain ⟨hA, pre, c, post, heq, hc, hpre⟩ := ih h
      refine ⟨hA, cand :: pre, c, post, by rw [heq, List.cons_append], hc, ?_⟩
      intro c2 hc2
      rcases List.mem_cons.mp hc2 with rfl | hmem
      · simp [chooseField, hl]
      · exact hpre c2 hmem
    | some hit =>
      rw [hl] at h
      dsimp only [] at h
      by_cases h1 : ((lookupA metaByName hit).getD (false, false)).1
      · rw [if_pos (by simp [h1])] at h
        obtain ⟨hA, pre, c, post, heq, hc, hpre⟩ := ih h
        refine ⟨hA, cand :: pre, c, post, by rw [heq, List.cons_append], hc, ?_⟩
        intro c2 hc2
        rcases List.mem_cons.mp hc2 with rfl | hmem
        · simp [chooseField, hl, h1]
        · exact hpre c2 hmem
      · rw [if_neg (by simp [h1])] at h
        by_cases h2 : ((lookupA metaByName hit).getD (false, false)).2
        · rw [if_pos h2] at h
          obtain ⟨hA, pre, c, post, heq, hc, hpre⟩ := ih h
          refine ⟨hA, cand :: pre, c, post, by rw [heq, List.cons_append], hc, ?_⟩
          intro c2 hc2
          rcases List.mem_cons.mp hc2 with rfl | hmem
          · simp [chooseField, hl, h1, h2]
          · exact hpre c2 hmem
        · rw [if_neg h2] at h
          have hn : hit = n := by simpa using h
          subst hn
          refine ⟨?_, [], cand, rest, rfl, ?_, by simp⟩
          · intro ro hid hm
            rw [hm] at h1 h2
            simp only [Option.getD_some] at h1 h2
            exact ⟨by simpa using h1, by simpa using h2⟩
          · simp [chooseField, hl, h1, h2]

/-- Witness for C5: `Title` is read-only, so the writable `Status`
column is selected instead, and it is neither read-only nor hidden. -/
theorem C5_requireWritable_witness :
    ((∀ ro hid, lookupA [("Title", (true, false)), ("Status", (false, false))]
        "Status" = some (ro, hid) → ro = false ∧ hid = false) ∧
     ∃ pre c post, ["Title", "Status"] = pre ++ c :: post ∧
       chooseField [("title", "Title"), ("status", "Status")]
         [("Title", (true, false)), ("Status", (false, false))] [c] true =
           some "Status" ∧
       ∀ c2 ∈ pre, chooseField [("title", "Title"), ("status", "Status")]
         [("Title", (true, false)), ("Status", (false, false))] [c2] true = none) :=
  C5_requireWritable_never_readonly_or_hidden
    [("title", "Title"), ("status", "Status")]
    [("Title", (true, false)), ("Status", (false, false))]
    ["Title", "Status"] "Status" (by decide)

/-! ## Lemmas about the chunk loop -/

theorem chunkSize_pos : 0 < chunkSize := by decide

/-- `k < ceil(d / chunkSize)` iff the `k`-th chunk start lies below `d`. -/
theorem lt_ceilChunks_iff {d k : Nat} :
    k < (d + chunkSize - 1) / chunkSize ↔ k * chunkSize < d := by
  rw [Nat.lt_iff_add_one_le, Nat.le_div_iff_mul_le chunkSize_pos]
  simp only [chunkSize]
  omega

theorem chunkRangesF_nil (fuel size start : Nat) (h : ¬ start < size) :
    chunkRangesF fuel size start = [] := by
  cases fuel with
  | zero => rfl
  | succ f => rw [chunkRangesF, if_neg h]

/-- Closed form of the chunk loop's ranges: with sufficient fuel they
are exactly the `ceil((size - start) / chunkSize)` ranges
`[start + k·C, min(start + (k+1)·C, size))`. -/
theorem chunkRangesF_closed (size : Nat) : ∀ fuel start, size - start ≤ fuel →
    chunkRangesF fuel size start =
      (List.range ((size - start + chunkSize - 1) / chunkSize)).map
        (fun k => (start + k * chunkSize, min (start + (k + 1) * chunkSize) size)) := by
  intro fuel
  induction fuel with
  | zero =>
    intro start hle
    have hcount : (size - start + chunkSize - 1) / chunkSize = 0 := by
      apply Nat.div_eq_of_lt
      simp only [chunkSize] at *
      omega
    rw [hcount]
    rfl
  | succ f ih =>
    intro start hle
    by_cases hs : start < size
    · rw [chunkRangesF, if_pos hs]
      by_cases hC : start + chunkSize < size
      · have hmin : min (start + chunkSize) size = start + chunkSize :=
          min_eq_left (le_of_lt hC)
        rw [hmin, ih (start + chunkSize) (by simp only [chunkSize] at *; omega)]
        have hcount : size - start + chunkSize - 1 =
            (size - (start + chunkSize) + chunkSize - 1) + chunkSize := by
          simp only [chunkSize] at *
          omega
        rw [hcount, Nat.add_div_right _ chunkSize_pos, List.range_succ_eq_map]
        rw [List.map_cons, List.map_map]
        congr 1
        · simp [hmin]
        · apply List.map_congr_left
          intro k _
          simp only [Function.comp_apply, Prod.mk.injEq]
          refine ⟨by simp only [chunkSize]; omega, ?_⟩
          congr 1
          simp only [chunkSize]
          omega
      · have hmin : min (start + chunkSize) size = size :=
          min_eq_right (by omega)
        have hcount : (size - start + chunkSize - 1) / chunkSize = 1 := by
          apply Nat.div_eq_of_lt_le
          · simp only [chunkSize] at *; omega
          · simp only [chunkSize] at *; omega
        rw [hmin, chunkRangesF_nil f size size (by omega), hcount]
        simp [List.range_succ, hmin]
    · rw [chunkRangesF_nil _ _ _ hs]
      have hcount : (size - start + chunkSize - 1) / chunkSize = 0 := by
        apply Nat.div_eq_of_lt
        simp only [chunkSize] at *
        omega
      rw [hcount]
      rfl

theorem chunkRanges_closed (size start : Nat) :
    chunkRanges size start =
      (List.range ((size - start + chunkSize - 1) / chunkSize)).map
        (fun k => (start + k * chunkSize, min (start + (k + 1) * chunkSize) size)) :=
  chunkRangesF_closed size (size - start) start le_rfl

/-- With every chunk response accepted, the loop PUTs exactly the
sliced ranges, in order, and succeeds. -/
theorem uploadSessionLoopF_allOk (size : Nat) (resp : Nat → Nat × String)
    (hacc : ∀ j, chunkAccepted (resp j).1 = true) :
    ∀ fuel i start, uploadSessionLoopF fuel size resp i start =
      ((chunkRangesF fuel size start).map
        (fun p => UploadCall.putChunk p (contentRange p.1 p.2 size)), .ok) := by
  intro fuel
  induction fuel with
  | zero => intro i start; rfl
  | succ f ih =>
    intro i start
    rw [uploadSessionLoopF, chunkRangesF]
    by_cases hs : start < size
    · rw [if_pos hs, if_pos hs]
      dsimp only []
      rw [if_pos (hacc i), ih (i + 1)]
      rfl
    · rw [if_neg hs, if_neg hs]
      rfl

/-- When the first `j` chunk responses are accepted and the `(j+1)`-th
is rejected (and chunk `j` exists), the loop PUTs exactly the first
`j + 1` ranges and aborts with the rejected status and body: no
further chunk is sent. -/
theorem uploadSessionLoopF_abort (size : Nat) (resp : Nat → Nat × String) :
    ∀ j fuel i start, size - start ≤ fuel →
      (∀ k, k < j → chunkAccepted (resp (i + k)).1 = true) →
      chunkAccepted (resp (i + j)).1 = false →
      start + j * chunkSize < size →
      uploadSessionLoopF fuel size resp i start =
        (((chunkRangesF fuel size start).take (j + 1)).map
           (fun p => UploadCall.putChunk p (contentRange p.1 p.2 size)),
         .chunkError (resp (i + j)).1 (resp (i + j)).2) := by
  intro j
  induction j with
  | zero =>
    intro fuel i start hfuel hpre hfail hj
    rw [Nat.add_zero] at hfail
    have hs : start < size := by simp only [chunkSize] at hj; omega
    obtain ⟨f, rfl⟩ : ∃ f, fuel = f + 1 := ⟨fuel - 1, by omega⟩
    rw [uploadSessionLoopF, chunkRangesF, if_pos hs, if_pos hs]
    dsimp only []
    rw [if_neg (by rw [hfail]; exact Bool.false_ne_true), Nat.add_zero]
    simp
  | succ j' ih =>
    intro fuel i start hfuel hpre hfail hj
    have hs : start < size := by simp only [chunkSize] at hj; omega
    have hC : start + chunkSize ≤ size := by simp only [chunkSize] at hj ⊢; omega
    have hacc0 : chunkAccepted (resp i).1 = true := by
      have h0 := hpre 0 (Nat.succ_pos j')
      rwa [Nat.add_zero] at h0
    obtain ⟨f, rfl⟩ : ∃ f, fuel = f + 1 := ⟨fuel - 1, by omega⟩
    rw [uploadSessionLoopF, chunkRangesF, if_pos hs, if_pos hs]
    dsimp only []
    rw [if_pos hacc0]
    have hmin : min (start + chunkSize) size = start + chunkSize := min_eq_left hC
    rw [hmin]
    have hstep := ih f (i + 1) (start + chunkSize)
      (by have := chunkSize_pos; omega)
      (fun k hk => by
        have hp := hpre (k + 1) (by omega)
        rwa [show i + (k + 1) = i + 1 + k by omega] at hp)
      (by rwa [show i + 1 + j' = i + (j' + 1) by omega])
      (by simp only [chunkSize] at hj ⊢; omega)
    rw [hstep, List.take_succ_cons, List.map_cons]
    rw [show i + 1 + j' = i + (j' + 1) by omega]

theorem uploadSessionLoopF_calls_chunks (size : Nat) (resp : Nat → Nat × String) :
    ∀ fuel i start c, c ∈ (uploadSessionLoopF fuel size resp i start).1 →
      ∃ rng hdr, c = UploadCall.putChunk rng hdr := by
  intro fuel
  induction fuel with
  | zero => intro i start c hc; simp [uploadSessionLoopF] at hc
  | succ f ih =>
    intro i start c hc
    rw [uploadSessionLoopF] at hc
    by_cases hs : start < size
    · rw [if_pos hs] at hc
      dsimp only [] at hc
      by_cases ha : chunkAccepted (resp i).1 = true
      · rw [if_pos ha] at hc
        rcases List.mem_cons.mp hc with rfl | hmem
        · exact ⟨_, _, rfl⟩
        · exact ih (i + 1) _ c hmem
      · rw [if_neg ha] at hc
        rcases List.mem_cons.mp hc with rfl | hmem
        · exact ⟨_, _, rfl⟩
        · simp at hmem
    · rw [if_neg hs] at hc
      simp at hc

/-! ## C8: small/large threshold boundary -/

/-- **C8.** A file of exactly 3,999,999 bytes takes the single-shot
direct-content-write path (one `PUT :/content` call, no session), and
a file of exactly 4,000,000 bytes takes the resumable chunked-session
path (the first call opens an upload session, and no direct content
write is ever issued). -/
theorem C8_threshold_boundary (resp : Nat → Nat × String) :
    uploadOneCalls 3999999 resp = ([.putContent], .ok) ∧
    (uploadOneCalls 4000000 resp).1.head? = some .createSession ∧
    UploadCall.putContent ∉ (uploadOneCalls 4000000 resp).1 := by
  refine ⟨by rw [uploadOneCalls, if_pos (by omega)], ?_, ?_⟩
  · rw [uploadOneCalls, if_neg (by omega)]
    dsimp only []
    cases (uploadSessionLoop 4000000 resp 0 0).2 <;> rfl
  · rw [uploadOneCalls, if_neg (by omega)]
    dsimp only []
    cases (uploadSessionLoop 4000000 resp 0 0).2 with
    | ok =>
      intro hmem
      simp only [List.mem_cons, List.mem_append, List.mem_singleton] at hmem
      rcases hmem with (h | h) | h
      · exact absurd h (by simp)
      · obtain ⟨rng, hdr, he⟩ :=
          uploadSessionLoopF_calls_chunks 4000000 resp (4000000 - 0) 0 0 _ h
        exact absurd he (by simp)
      · exact absurd h (by simp)
    | chunkError status body =>
      intro hmem
      simp only [List.mem_cons] at hmem
      rcases hmem with h | h
      · exact absurd h (by simp)
      · obtain ⟨rng, hdr, he⟩ :=
          uploadSessionLoopF_calls_chunks 4000000 resp (4000000 - 0) 0 0 _ h
        exact absurd he (by simp)

/-- Witness for C8: with all-200 responses, the 3,999,999-byte file
issues exactly the single direct content write. -/
theorem C8_threshold_boundary_witness :
    uploadOneCalls 3999999 (fun _ => (200, "")) =
      ([UploadCall.putContent], UploadResult.ok) :=
  (C8_threshold_boundary (fun _ => (200, ""))).1

/-! ## C2: chunked-upload partition -/

/-- **C2.** For a file larger than the small-file threshold whose
chunk responses are all accepted, `uploadOne` opens a session, issues
exactly `ceil(S / C)` chunk PUTs (with `C = 5·1024·1024`), and
fetches the final item; the `k`-th PUT carries the slice
`[k·C, min((k+1)·C, S))` with its `Content-Range` header, and the
ranges partition `[0, S)` contiguously and without overlap: the first
starts at 0, each chunk's end is the next chunk's start, every range
is non-empty and within bounds, and the last ends at `S`. -/
theorem C2_chunked_upload_partition (S : Nat) (resp : Nat → Nat × String)
    (hS : 3999999 < S) (hacc : ∀ j, chunkAccepted (resp j).1 = true) :
    uploadOneCalls S resp =
      (.createSession :: (chunkRanges S 0).map
          (fun p => .putChunk p (contentRange p.1 p.2 S)) ++ [.getFinal], .ok) ∧
    (chunkRanges S 0).length = (S + chunkSize - 1) / chunkSize ∧
    (∀ k, (chunkRanges S 0).get? k =
      if k * chunkSize < S then
        some (k * chunkSize, min ((k + 1) * chunkSize) S)
      else none) ∧
    (∀ k a b, (chunkRanges S 0).get? k = some a →
      (chunkRanges S 0).get? (k + 1) = some b → a.2 = b.1) ∧
    (∀ k a, (chunkRanges S 0).get? k = some a → a.1 < a.2 ∧ a.2 ≤ S) ∧
    (∀ a, (chunkRanges S 0).get? ((chunkRanges S 0).length - 1) = some a →
      a.2 = S) ∧
    (chunkRanges S 0).head? = some (0, min chunkSize S) := by
  have hL : chunkRanges S 0 =
      (List.range ((S + chunkSize - 1) / chunkSize)).map
        (fun k => (k * chunkSize, min ((k + 1) * chunkSize) S)) := by
    have h0 := chunkRanges_closed S 0
    simpa using h0
  have hlen : (chunkRanges S 0).length = (S + chunkSize - 1) / chunkSize := by
    rw [hL, List.length_map, List.length_range]
  have hget : ∀ k, (chunkRanges S 0).get? k =
      if k * chunkSize < S then
        some (k * chunkSize, min ((k + 1) * chunkSize) S)
      else none := by
    intro k
    rw [hL, List.get?_map]
    by_cases hk : k < (S + chunkSize - 1) / chunkSize
    · rw [List.get?_range hk, if_pos (lt_ceilChunks_iff.mp hk)]
      rfl
    · rw [if_neg (fun hlt => hk (lt_ceilChunks_iff.mpr hlt))]
      rw [List.get?_eq_none.mpr (by rw [List.length_range]; omega)]
      rfl
  refine ⟨?_, hlen, hget, ?_, ?_, ?_, ?_⟩
  · have hloop : uploadSessionLoop S resp 0 0 =
        ((chunkRanges S 0).map
          (fun p => UploadCall.putChunk p (contentRange p.1 p.2 S)), .ok) :=
      uploadSessionLoopF_allOk S resp hacc (S - 0) 0 0
    rw [uploadOneCalls, if_neg (by omega)]
    dsimp only []
    rw [hloop]
  · intro k a b ha hb
    rw [hget] at ha hb
    split at ha
    on_goal 2 => exact absurd ha (by simp)
    split at hb
    on_goal 2 => exact absurd hb (by simp)
    have hb1 : (k + 1) * chunkSize < S := by assumption
    obtain rfl : a = (k * chunkSize, min ((k + 1) * chunkSize) S) := by
      simpa using ha.symm
    obtain rfl : b = ((k + 1) * chunkSize, min ((k + 1 + 1) * chunkSize) S) := by
      simpa using hb.symm
    exact min_eq_left (le_of_lt hb1)
  · intro k a ha
    rw [hget] at ha
    split at ha
    on_goal 2 => exact absurd ha (by simp)
    have hk1 : k * chunkSize < S := by assumption
    obtain rfl : a = (k * chunkSize, min ((k + 1) * chunkSize) S) := by
      simpa using ha.symm
    constructor
    · exact lt_min (by have := chunkSize_pos; simp only [chunkSize] at *; omega) hk1
    · exact min_le_right _ _
  · intro a ha
    rw [hget] at ha
    split at ha
    on_goal 2 => exact absurd ha (by simp)
    have hk1 : ((chunkRanges S 0).length - 1) * chunkSize < S := by assumption
    obtain rfl :
        a = (((chunkRanges S 0).length - 1) * chunkSize,
             min (((chunkRanges S 0).length - 1 + 1) * chunkSize) S) := by
      simpa using ha.symm
    have hcount1 : 0 < (S + chunkSize - 1) / chunkSize :=
      lt_ceilChunks_iff.mpr (by have := chunkSize_pos; omega)
    have hk2 : (chunkRanges S 0).length - 1 + 1 = (S + chunkSize - 1) / chunkSize := by
      rw [hlen]; omega
    have hSle : S ≤ ((S + chunkSize - 1) / chunkSize) * chunkSize := by
      by_contra hlt
      push_neg at hlt
      have h2 : (S + chunkSize - 1) / chunkSize < (S + chunkSize - 1) / chunkSize :=
        lt_ceilChunks_iff.mpr hlt
      exact absurd h2 (lt_irrefl _)
    rw [hk2]
    exact min_eq_right hSle
  · have hcount1 : 0 < (S + chunkSize - 1) / chunkSize :=
      lt_ceilChunks_iff.mpr (by have := chunkSize_pos; omega)
    obtain ⟨m, hm⟩ : ∃ m, (S + chunkSize - 1) / chunkSize = m + 1 :=
      ⟨(S + chunkSize - 1) / chunkSize - 1, by omega⟩
    rw [hL, hm, List.range_succ_eq_map, List.map_cons]
    simp

/-- Witness for C2 at `S = 10485761 = 2·C + 1` and all-200 responses:
the upload succeeds and slices `ceil(S / C) = 3` chunks. -/
theorem C2_chunked_upload_partition_witness :
    (uploadOneCalls 10485761 (fun _ => (200, ""))).2 = UploadResult.ok ∧
    (chunkRanges 10485761 0).length = 3 :=
  ⟨by
    rw [congrArg Prod.snd
      (C2_chunked_upload_partition 10485761 (fun _ => (200, ""))
        (by omega) (fun _ => rfl)).1],
   ((C2_chunked_upload_partition 10485761 (fun _ => (200, ""))
      (by omega) (fun _ => rfl)).2.1).trans (by decide)⟩

/-! ## C6: chunk response acceptance -/

/-- **C6, counterexample.**  The code accepts a chunk response iff
`res.ok || [200,201,202].includes(status)`, i.e. iff the status is any
2xx: status 204 is not one of 200/201/202, yet it is accepted and the
upload completes instead of aborting. -/
theorem C6_chunk_status_counterexample :
    chunkAccepted 204 = true ∧ ¬(204 = 200 ∨ 204 = 201 ∨ 204 = 202) ∧
    (uploadOneCalls 4000000 (fun _ => (204, "body"))).2 = UploadResult.ok := by
  refine ⟨rfl, by decide, ?_⟩
  have hloop : uploadSessionLoop 4000000 (fun _ => (204, "body")) 0 0 =
      ((chunkRanges 4000000 0).map
        (fun p => UploadCall.putChunk p (contentRange p.1 p.2 4000000)), .ok) :=
    uploadSessionLoopF_allOk 4000000 (fun _ => (204, "body")) (fun _ => rfl)
      (4000000 - 0) 0 0
  rw [uploadOneCalls, if_neg (by omega)]
  dsimp only []
  rw [hloop]

/-- **C6, amended.**  A chunk response is accepted iff its status is
in the 2xx range 200–299 (`res.ok`, with 200/201/202 also explicitly
allowed — a strict superset of the spec's 200/201/202 list); on the
first rejected status, the upload sends no further chunks (exactly the
first `j + 1` chunk PUTs happen) and aborts with an error carrying the
rejected status and the response body. -/
theorem C6_chunk_status_handling (S : Nat) (resp : Nat → Nat × String) (j : Nat)
    (hS : 3999999 < S)
    (hpre : ∀ k, k < j → chunkAccepted (resp k).1 = true)
    (hfail : chunkAccepted (resp j).1 = false)
    (hj : j * chunkSize < S) :
    (∀ s, chunkAccepted s = true ↔ (200 ≤ s ∧ s ≤ 299)) ∧
    uploadOneCalls S resp =
      (.createSession :: ((chunkRanges S 0).take (j + 1)).map
         (fun p => .putChunk p (contentRange p.1 p.2 S)),
       .chunkError (resp j).1 (resp j).2) ∧
    ((chunkRanges S 0).take (j + 1)).length = j + 1 := by
  refine ⟨?_, ?_, ?_⟩
  · intro s
    simp only [chunkAccepted, resOk, Bool.or_eq_true, Bool.and_eq_true,
      decide_eq_true_eq, beq_iff_eq]
    omega
  · have habort : uploadSessionLoop S resp 0 0 =
        (((chunkRanges S 0).take (j + 1)).map
           (fun p => UploadCall.putChunk p (contentRange p.1 p.2 S)),
         .chunkError (resp (0 + j)).1 (resp (0 + j)).2) :=
      uploadSessionLoopF_abort S resp j (S - 0) 0 0 le_rfl
        (fun k hk => by rw [Nat.zero_add]; exact hpre k hk)
        (by rw [Nat.zero_add]; exact hfail)
        (by rw [Nat.zero_add]; exact hj)
    simp only [Nat.zero_add] at habort
    rw [uploadOneCalls, if_neg (by omega)]
    dsimp only []
    rw [habort]
  · rw [List.length_take]
    have hlen : (chunkRanges S 0).length = (S + chunkSize - 1) / chunkSize := by
      have h0 := chunkRanges_closed S 0
      simp only [Nat.sub_zero] at h0
      rw [h0, List.length_map, List.length_range]
    have : j < (S + chunkSize - 1) / chunkSize := lt_ceilChunks_iff.mpr hj
    omega

/-- Witness for C6 (amended): a single-chunk upload whose only
response is HTTP 404 aborts with that status and body. -/
theorem C6_chunk_status_handling_witness :
    uploadOneCalls 4000000 (fun _ => (404, "nf")) =
      (.createSession :: ((chunkRanges 4000000 0).take (0 + 1)).map
         (fun p => .putChunk p (contentRange p.1 p.2 4000000)),
       .chunkError 404 "nf") :=
  (C6_chunk_status_handling 4000000 (fun _ => (404, "nf")) 0 (by omega)
    (fun k hk => absurd hk (Nat.not_lt_zero k)) rfl
    (by have := chunkSize_pos; omega)).2.1

/-! ## Lemmas about the folder-provisioning walk -/

theorem ensureWalk_mono : ∀ (segs store : List String) (parent x : String),
    x ∈ store → x ∈ (ensureWalk store segs parent).1 := by
  intro segs
  induction segs with
  | nil => intro store parent x hx; exact hx
  | cons raw rest ih =>
    intro store parent x hx
    rw [ensureWalk]
    dsimp only []
    by_cases h1 : jsTrim raw = ""
    · rw [if_pos h1]
      exact ih store parent x hx
    · rw [if_neg h1]
      by_cases h2 : (if parent = "" then jsTrim raw else parent ++ "/" ++ jsTrim raw) ∈ store
      · rw [if_pos h2]
        exact ih _ _ x hx
      · rw [if_neg h2]
        exact ih _ _ x (List.mem_cons_of_mem _ hx)

/-- Re-running the walk on the store it produced reads every segment
successfully and issues no create calls. -/
theorem ensureWalk_idem : ∀ (segs store : List String) (parent : String),
    ensureWalk (ensureWalk store segs parent).1 segs parent =
      ((ensureWalk store segs parent).1, []) := by
  intro segs
  induction segs with
  | nil => intro store parent; rfl
  | cons raw rest ih =>
    intro store parent
    simp only [ensureWalk]
    by_cases h1 : jsTrim raw = ""
    · simp only [if_pos h1]
      exact ih store parent
    · simp only [if_neg h1]
      by_cases h2 : (if parent = "" then jsTrim raw else parent ++ "/" ++ jsTrim raw) ∈ store
      · simp only [if_pos h2]
        rw [if_pos (ensureWalk_mono rest store _ _ h2)]
        exact ih store _
      · simp only [if_neg h2]
        rw [if_pos (ensureWalk_mono rest _ _ _ (List.mem_cons_self _ _))]
        exact ih _ _

/-- The walk's create calls are pairwise distinct and only target
paths that were missing from the store beforehand. -/
theorem ensureWalk_creates : ∀ (segs store : List String) (parent : String),
    (ensureWalk store segs parent).2.Nodup ∧
    ∀ p ∈ (ensureWalk store segs parent).2, p ∉ store := by
  intro segs
  induction segs with
  | nil => intro store parent; exact ⟨List.nodup_nil, by simp [ensureWalk]⟩
  | cons raw rest ih =>
    intro store parent
    simp only [ensureWalk]
    by_cases h1 : jsTrim raw = ""
    · simp only [if_pos h1]
      exact ih store parent
    · simp only [if_neg h1]
      by_cases h2 : (if parent = "" then jsTrim raw else parent ++ "/" ++ jsTrim raw) ∈ store
      · simp only [if_pos h2]
        exact ih store _
      · simp only [if_neg h2]
        obtain ⟨hnd, hfr⟩ :=
          ih ((if parent = "" then jsTrim raw else parent ++ "/" ++ jsTrim raw) :: store) _
        constructor
        · exact List.nodup_cons.mpr
            ⟨fun hmem => (hfr _ hmem) (List.mem_cons_self _ _), hnd⟩
        · intro p hp
          rcases List.mem_cons.mp hp with rfl | hmem
          · exact h2
          · intro hpstore
            exact hfr p hmem (List.mem_cons_of_mem _ hpstore)

/-! ## C1: `ensureFolder` idempotence -/

/-- **C1.** For every drive store state, base folder path, and
timestamp: the first `ensureFolder` call issues at most one
folder-create call per path that was missing beforehand (its create
calls are pairwise distinct and target only previously-missing
paths); a second call with the same inputs, run against the store
state left by the first, issues zero create calls (every segment read
succeeds); and both calls return the same `YYYY/MM` suffix with the
zero-padded month computed from the timestamp. -/
theorem C1_ensureFolder_idempotent (store : List String) (basePath : String)
    (st : Stamp) :
    (ensureFolder (ensureFolder store basePath st).store basePath st).creates = [] ∧
    (ensureFolder (ensureFolder store basePath st).store basePath st).suffix =
      (ensureFolder store basePath st).suffix ∧
    (ensureFolder store basePath st).suffix =
      jsNatString st.year ++ "/" ++ pad2 (st.monthIdx + 1) ∧
    (ensureFolder store basePath st).creates.Nodup ∧
    ∀ p ∈ (ensureFolder store basePath st).creates, p ∉ store := by
  unfold ensureFolder
  dsimp only []
  refine ⟨?_, rfl, rfl, (ensureWalk_creates _ _ _).1, (ensureWalk_creates _ _ _).2⟩
  rw [ensureWalk_idem]

/-- Witness for C1: with `Photos` already present, the nested call
creates nothing and the suffix is `2025/01` (January zero-padded). -/
theorem C1_ensureFolder_idempotent_witness :
    (ensureFolder (ensureFolder ["Photos"] "Photos/Field" ⟨2025, 0⟩).store
      "Photos/Field" ⟨2025, 0⟩).creates = [] ∧
    (ensureFolder ["Photos"] "Photos/Field" ⟨2025, 0⟩).suffix = "2025/01" :=
  ⟨(C1_ensureFolder_idempotent ["Photos"] "Photos/Field" ⟨2025, 0⟩).1,
   ((C1_ensureFolder_idempotent ["Photos"] "Photos/Field" ⟨2025, 0⟩).2.2.1).trans
     (by decide)⟩

/-! ## C7: payload assembly -/

/-- **C7, counterexample.**  Against a schema that has a `PhotoUrl`
column but no title-like column, title resolution returns none, yet
the assembled payload still contains the key `Title` (the
`chooseField(...) || "Title"` fallback in `submit`), which is not a
confirmed internal column name of the schema: the title logical field
is not skipped when unresolved. -/
theorem C7_payload_counterexample :
    chooseField (getColumns [{ name := "PhotoUrl" }]).byLower
      (getColumns [{ name := "PhotoUrl" }]).metaByName titleCandidates true = none ∧
    assemblePayload (getColumns [{ name := "PhotoUrl" }]).byLower
      (getColumns [{ name := "PhotoUrl" }]).metaByName "t" "v" "n" "d" "p" =
      some [("Title", "t"), ("PhotoUrl", "p")] ∧
    lookupA (getColumns [{ name := "PhotoUrl" }]).metaByName "Title" = none := by
  decide

/-- **C7, amended.**  The payload is assembled iff the photo column
resolves (otherwise the submission aborts).  Every assembled key is
either the title key — the resolved title column when resolution
succeeds, else the literal fallback `Title` even though unresolved —
or the internal name returned by the village, notes, captured-on, or
photo resolution; and each of village, notes, and captured-on appears
exactly when its resolution returned a column (so those logical
fields are skipped when unresolved, while title is not). -/
theorem C7_payload_uses_resolved_names (byLower : List (String × String))
    (metaByName : List (String × (Bool × Bool))) (tv vv nv dv pv : String) :
    ((assemblePayload byLower metaByName tv vv nv dv pv).isSome ↔
      (chooseField byLower metaByName photoCandidates true).isSome) ∧
    ∀ fields, assemblePayload byLower metaByName tv vv nv dv pv = some fields →
      (((chooseField byLower metaByName titleCandidates true).getD "Title", tv)
          ∈ fields) ∧
      (∀ p2, chooseField byLower metaByName photoCandidates true = some p2 →
        (p2, pv) ∈ fields) ∧
      (∀ n2, chooseField byLower metaByName villageCandidates true = some n2 →
        (n2, vv) ∈ fields) ∧
      (∀ n2, chooseField byLower metaByName notesCandidates true = some n2 →
        (n2, nv) ∈ fields) ∧
      (∀ n2, chooseField byLower metaByName capturedOnCandidates true = some n2 →
        (n2, dv) ∈ fields) ∧
      ∀ kv ∈ fields,
        kv.1 = (chooseField byLower metaByName titleCandidates true).getD "Title" ∨
        chooseField byLower metaByName villageCandidates true = some kv.1 ∨
        chooseField byLower metaByName notesCandidates true = some kv.1 ∨
        chooseField byLower metaByName capturedOnCandidates true = some kv.1 ∨
        chooseField byLower metaByName photoCandidates true = some kv.1 := by
  unfold assemblePayload
  dsimp only []
  cases hph : chooseField byLower metaByName photoCandidates true with
  | none =>
    refine ⟨by simp, ?_⟩
    intro fields hf
    simp at hf
  | some p2 =>
    refine ⟨by simp, ?_⟩
    intro fields hf
    simp only [Option.some.injEq] at hf
    subst hf
    refine ⟨by simp, ?_, ?_, ?_, ?_, ?_⟩
    · intro p3 hp3
      injection hp3 with hp3
      subst hp3
      simp
    · intro n2 h
      rw [h]
      simp
    · intro n2 h
      rw [h]
      simp
    · intro n2 h
      rw [h]
      simp
    · intro kv hkv
      rcases List.mem_append.mp hkv with h | h
      · rcases List.mem_append.mp h with h | h
        · rcases List.mem_append.mp h with h | h
          · rcases List.mem_append.mp h with h | h
            · left
              simp only [List.mem_singleton] at h
              rw [h]
            · cases hv : chooseField byLower metaByName villageCandidates true with
              | none => rw [hv] at h; simp at h
              | some n2 =>
                rw [hv] at h
                simp only [List.mem_singleton] at h
                right; left
                rw [h]
          · cases hn : chooseField byLower metaByName notesCandidates true with
            | none => rw [hn] at h; simp at h
            | some n2 =>
              rw [hn] at h
              simp only [List.mem_singleton] at h
              right; right; left
              rw [h]
        · cases hcap : chooseField byLower metaByName capturedOnCandidates true with
          | none => rw [hcap] at h; simp at h
          | some n2 =>
            rw [hcap] at h
            simp only [List.mem_singleton] at h
            right; right; right; left
            rw [h]
      · simp only [List.mem_singleton] at h
        right; right; right; right
        rw [h]

/-- Witness for C7 (amended): with columns `PhotoUrl` and `Village`,
the payload is exactly title-fallback, village, photo; its title entry
is present. -/
theorem C7_payload_uses_resolved_names_witness :
    ((("Title" : String), ("t" : String)) ∈
      ([("Title", "t"), ("Village", "v"), ("PhotoUrl", "p")] :
        List (String × String))) :=
  ((C7_payload_uses_resolved_names
      (getColumns [{ name := "PhotoUrl" }, { name := "Village" }]).byLower
      (getColumns [{ name := "PhotoUrl" }, { name := "Village" }]).metaByName
      "t" "v" "n" "d" "p").2
    [("Title", "t"), ("Village", "v"), ("PhotoUrl", "p")] rfl).1

/-! ## Lemmas about the JSON encoding -/

theorem hexVal_hexDigitChar (m : Nat) (hm : m < 16) :
    hexVal (hexDigitChar m) = some m := by
  interval_cases m <;> decide

/-- Decoding inverts the escaping of a single character. -/
theorem parseStringBody_escapeChar (c : Char) (tail : List Char)
    (res : List Char × List Char) (h : parseStringBody tail = some res) :
    parseStringBody (escapeChar c ++ tail) = some (c :: res.1, res.2) := by
  unfold escapeChar
  by_cases hq : c = '"'
  · rw [if_pos hq]
    subst hq
    rw [show ['\\', '"'] ++ tail = '\\' :: '"' :: tail from rfl,
      parseStringBody.eq_def]
    simp [unescapeSimple, h]
  · rw [if_neg hq]
    by_cases hbs : c = '\\'
    · rw [if_pos hbs]
      subst hbs
      rw [show ['\\', '\\'] ++ tail = '\\' :: '\\' :: tail from rfl,
        parseStringBody.eq_def]
      simp [unescapeSimple, h]
    · rw [if_neg hbs]
      by_cases h8 : c = Char.ofNat 8
      · rw [if_pos h8]
        subst h8
        rw [show ['\\', 'b'] ++ tail = '\\' :: 'b' :: tail from rfl,
          parseStringBody.eq_def]
        simp [unescapeSimple, h]
      · rw [if_neg h8]
        by_cases h9 : c = Char.ofNat 9
        · rw [if_pos h9]
          subst h9
          rw [show ['\\', 't'] ++ tail = '\\' :: 't' :: tail from rfl,
            parseStringBody.eq_def]
          simp [unescapeSimple, h]
        · rw [if_neg h9]
          by_cases h10 : c = Char.ofNat 10
          · rw [if_pos h10]
            subst h10
            rw [show ['\\', 'n'] ++ tail = '\\' :: 'n' :: tail from rfl,
              parseStringBody.eq_def]
            simp [unescapeSimple, h]
          · rw [if_neg h10]
            by_cases h12 : c = Char.ofNat 12
            · rw [if_pos h12]
              subst h12
              rw [show ['\\', 'f'] ++ tail = '\\' :: 'f' :: tail from rfl,
                parseStringBody.eq_def]
              simp [unescapeSimple, h]
            · rw [if_neg h12]
              by_cases h13 : c = Char.ofNat 13
              · rw [if_pos h13]
                subst h13
                rw [show ['\\', 'r'] ++ tail = '\\' :: 'r' :: tail from rfl,
                  parseStringBody.eq_def]
                simp [unescapeSimple, h]
              · rw [if_neg h13]
                by_cases hlt : c.toNat < 32
                · rw [if_pos hlt]
                  have h16 : c.toNat / 16 < 16 := by omega
                  have hm16 : c.toNat % 16 < 16 := by omega
                  have hval :
                      ((0 * 16 + 0) * 16 + c.toNat / 16) * 16 + c.toNat % 16 =
                        c.toNat := by omega
                  rw [show ['\\', 'u', '0', '0', hexDigitChar (c.toNat / 16),
                      hexDigitChar (c.toNat % 16)] ++ tail =
                      '\\' :: 'u' :: '0' :: '0' :: hexDigitChar (c.toNat / 16) ::
                        hexDigitChar (c.toNat % 16) :: tail from rfl,
                    parseStringBody.eq_def]
                  show (match hexVal '0', hexVal '0',
                      hexVal (hexDigitChar (c.toNat / 16)),
                      hexVal (hexDigitChar (c.toNat % 16)) with
                    | some ha, some hb, some hc6, some hd =>
                      Option.map
                        (fun p =>
                          (Char.ofNat (((ha * 16 + hb) * 16 + hc6) * 16 + hd) ::
                            p.1, p.2))
                        (parseStringBody tail)
                    | _, _, _, _ => none) = some (c :: res.1, res.2)
                  rw [show hexVal '0' = some 0 from rfl,
                    hexVal_hexDigitChar _ h16, hexVal_hexDigitChar _ hm16]
                  dsimp only []
                  rw [h]
                  simp only [Option.map_some']
                  rw [hval, Char.ofNat_toNat]
                · rw [if_neg hlt]
                  rw [show [c] ++ tail = c :: tail from rfl, parseStringBody.eq_def]
                  dsimp only []
                  rw [if_neg hq, if_neg hbs, h]
                  rfl

/-- Decoding inverts the escaping of a whole string body. -/
theorem parseStringBody_roundtrip : ∀ (s rest : List Char),
    parseStringBody (escapeList s ++ '"' :: rest) = some (s, rest) := by
  intro s
  induction s with
  | nil =>
    intro rest
    rw [show escapeList [] ++ '"' :: rest = '"' :: rest from rfl,
      parseStringBody.eq_def]
    rfl
  | cons c s' ih =>
    intro rest
    show parseStringBody ((escapeChar c ++ escapeList s') ++ '"' :: rest) = _
    rw [List.append_assoc]
    exact parseStringBody_escapeChar c _ _ (ih rest)

theorem joinEncoded_length_ge : ∀ ss : List (List Char),
    ss.length ≤ (joinEncoded ss).length := by
  intro ss
  induction ss with
  | nil => simp [joinEncoded]
  | cons s rest ih =>
    simp only [joinEncoded, List.length_cons, List.length_append]
    omega

/-- Decoding inverts the encoding of the items of a non-empty string
array, given fuel at least the number of remaining items plus one. -/
theorem parseItemsF_roundtrip : ∀ (ss : List (List Char)) (s : List Char)
    (fuel : Nat), ss.length + 1 ≤ fuel →
    parseItemsF fuel (escapeList s ++ '"' :: (joinEncoded ss ++ [']'])) =
      some (s :: ss) := by
  intro ss
  induction ss with
  | nil =>
    intro s fuel hfuel
    obtain ⟨f, rfl⟩ : ∃ f, fuel = f + 1 := ⟨fuel - 1, by omega⟩
    rw [parseItemsF, parseStringBody_roundtrip]
    rfl
  | cons v vs ih =>
    intro s fuel hfuel
    obtain ⟨f, rfl⟩ : ∃ f, fuel = f + 1 := ⟨fuel - 1, by omega⟩
    rw [parseItemsF, parseStringBody_roundtrip]
    have hjoin : joinEncoded (v :: vs) ++ [']'] =
        ',' :: '"' :: (escapeList v ++ '"' :: (joinEncoded vs ++ [']'])) := by
      simp [joinEncoded, encodeStringChars, List.append_assoc]
    rw [hjoin]
    show Option.map (fun ss => s :: ss)
        (parseItemsF f (escapeList v ++ '"' :: (joinEncoded vs ++ [']']))) =
      some (s :: v :: vs)
    rw [ih v f (by simp at hfuel; omega)]
    rfl

theorem string_mk_toList (s : String) : String.mk s.toList = s := by
  cases s
  rfl

theorem map_mk_toList (us : List String) :
    (us.map String.toList).map String.mk = us := by
  induction us with
  | nil => rfl
  | cons u us ih => simp only [List.map_cons, string_mk_toList, ih]

/-- Round-trip: parsing the `JSON.stringify` output of a string array
returns exactly the original ordered list. -/
theorem parseStringArray_jsonStringify (urls : List String) :
    parseStringArray (jsonStringify urls) = some urls := by
  cases urls with
  | nil => rfl
  | cons u us =>
    have htl : (jsonStringify (u :: us)).toList =
        '[' :: '"' :: (escapeList u.toList ++ '"' ::
          (joinEncoded (us.map String.toList) ++ [']'])) := by
      show (stringifyChars ((u :: us).map String.toList)) =
        '[' :: '"' :: (escapeList u.toList ++ '"' ::
          (joinEncoded (us.map String.toList) ++ [']']))
      simp [stringifyChars, encodeStringChars, List.append_assoc]
    have hlen : (us.map String.toList).length + 1 ≤
        (escapeList u.toList ++ '"' ::
          (joinEncoded (us.map String.toList) ++ [']'])).length := by
      have h1 := joinEncoded_length_ge (us.map String.toList)
      simp only [List.length_append, List.length_cons, List.length_map] at h1 ⊢
      omega
    rw [parseStringArray, htl]
    show ((parseItemsF
        (escapeList u.toList ++ '"' ::
          (joinEncoded (us.map String.toList) ++ [']'])).length
        (escapeList u.toList ++ '"' ::
          (joinEncoded (us.map String.toList) ++ [']']))).map
      (fun ss => ss.map String.mk)) = some (u :: us)
    rw [parseItemsF_roundtrip (us.map String.toList) u.toList _ hlen]
    simp only [Option.map_some', List.map_cons, string_mk_toList, map_mk_toList]

/-! ## C9: photo-value formatting round-trip -/

/-- **C9.** For a field whose discovered kind is the single-link/media
kind `hyperlinkOrPicture`, `formatPhotoValue` returns exactly the
first URL (empty string for an empty list); for a field of any other
kind (or no recorded kind) it returns a JSON string that parses back
to exactly the original ordered URL list. -/
theorem C9_formatPhotoValue_roundtrip (typeByName : List (String × String))
    (fieldName : String) (urls : List String) :
    (lookupA typeByName fieldName = some "hyperlinkOrPicture" →
      formatPhotoValue typeByName fieldName urls = urls.headD "") ∧
    (lookupA typeByName fieldName ≠ some "hyperlinkOrPicture" →
      parseStringArray (formatPhotoValue typeByName fieldName urls) = some urls) := by
  constructor
  · intro h
    unfold formatPhotoValue
    rw [h]
    dsimp only []
    rw [if_pos rfl]
  · intro h
    unfold formatPhotoValue
    cases hl : lookupA typeByName fieldName with
    | none => exact parseStringArray_jsonStringify urls
    | some t =>
      have ht : ¬ t = "hyperlinkOrPicture" := fun he => h (by rw [hl, he])
      dsimp only []
      rw [if_neg ht]
      exact parseStringArray_jsonStringify urls

/-- Witness for C9: a `hyperlinkOrPicture` field keeps only the first
URL, and a `text` field stores a JSON array that parses back. -/
theorem C9_formatPhotoValue_roundtrip_witness :
    formatPhotoValue [("p", "hyperlinkOrPicture")] "p" ["u1", "u2"] = "u1" ∧
    parseStringArray (formatPhotoValue [("p", "text")] "p" ["u1", "u2"]) =
      some ["u1", "u2"] :=
  ⟨(C9_formatPhotoValue_roundtrip [("p", "hyperlinkOrPicture")] "p"
      ["u1", "u2"]).1 rfl,
   (C9_formatPhotoValue_roundtrip [("p", "text")] "p" ["u1", "u2"]).2 (by decide)⟩

/-! ## Lemmas about decimal rendering and `sanitize` -/

theorem natDigitsRevF_eq (fuel n : Nat) (h : n < fuel) :
    natDigitsRevF fuel n =
      if n < 10 then [digitChar n]
      else digitChar (n % 10) :: natDigitsRevF (fuel - 1) (n / 10) := by
  cases fuel with
  | zero => omega
  | succ f => rfl

theorem digitChar_isDigit (d : Nat) (hd : d < 10) : (digitChar d).isDigit = true := by
  interval_cases d <;> decide

theorem natDigitsRevF_digits (fuel : Nat) : ∀ n ch, ch ∈ natDigitsRevF fuel n →
    ch.isDigit = true := by
  induction fuel with
  | zero => intro n ch hch; simp [natDigitsRevF] at hch
  | succ f ih =>
    intro n ch hch
    rw [natDigitsRevF] at hch
    by_cases h : n < 10
    · rw [if_pos h] at hch
      simp only [List.mem_singleton] at hch
      subst hch
      exact digitChar_isDigit n h
    · rw [if_neg h] at hch
      rcases List.mem_cons.mp hch with rfl | hm
      · exact digitChar_isDigit _ (Nat.mod_lt _ (by omega))
      · exact ih _ _ hm

theorem jsNatString_digits (n : Nat) :
    ∀ ch ∈ (jsNatString n).toList, ch.isDigit = true := by
  intro ch hch
  have hm : ch ∈ natDigitsRev n := by
    simpa [jsNatString] using hch
  exact natDigitsRevF_digits _ _ _ hm

theorem natDigitsRev_one (n : Nat) (h : n < 10) :
    natDigitsRev n = [digitChar n] := by
  unfold natDigitsRev
  rw [natDigitsRevF_eq _ _ (by omega), if_pos h]

theorem natDigitsRev_two (n : Nat) (h1 : 10 ≤ n) (h2 : n < 100) :
    natDigitsRev n = [digitChar (n % 10), digitChar (n / 10)] := by
  unfold natDigitsRev
  rw [natDigitsRevF_eq _ _ (by omega), if_neg (by omega),
    natDigitsRevF_eq _ _ (by omega), if_pos (by omega)]

theorem natDigitsRev_four_len (n : Nat) (h1 : 1000 ≤ n) (h2 : n ≤ 9999) :
    (natDigitsRev n).length = 4 := by
  unfold natDigitsRev
  rw [natDigitsRevF_eq _ _ (by omega), if_neg (by omega),
    natDigitsRevF_eq _ _ (by omega), if_neg (by omega),
    natDigitsRevF_eq _ _ (by omega), if_neg (by omega),
    natDigitsRevF_eq _ _ (by omega), if_pos (by omega)]
  rfl

theorem jsNatString_four_len (n : Nat) (h1 : 1000 ≤ n) (h2 : n ≤ 9999) :
    (jsNatString n).length = 4 := by
  unfold jsNatString
  rw [String.length_mk, List.length_reverse, natDigitsRev_four_len n h1 h2]

theorem toList_append (a b : String) : (a ++ b).toList = a.toList ++ b.toList := rfl

theorem pad2_spec (n : Nat) (h : n < 100) :
    (pad2 n).length = 2 ∧ ∀ ch ∈ (pad2 n).toList, ch.isDigit = true := by
  have hst := jsNatString_digits n
  unfold pad2
  dsimp only []
  by_cases h10 : n < 10
  · have hlen : (jsNatString n).length = 1 := by
      unfold jsNatString
      rw [String.length_mk, List.length_reverse, natDigitsRev_one n h10]
      rfl
    rw [hlen, if_pos (by omega)]
    constructor
    · rw [String.length_append, String.length_mk, List.length_replicate, hlen]
    · intro ch hch
      rw [toList_append] at hch
      rcases List.mem_append.mp hch with hm | hm
      · have : ch = '0' := List.eq_of_mem_replicate hm
        subst this
        decide
      · exact hst ch hm
  · have hlen : (jsNatString n).length = 2 := by
      unfold jsNatString
      rw [String.length_mk, List.length_reverse, natDigitsRev_two n (by omega) h]
      rfl
    rw [hlen, if_neg (by omega)]
    exact ⟨hlen, hst⟩

theorem timestampStr_spec (st : Stamp6) (hy1 : 1000 ≤ st.year)
    (hy2 : st.year ≤ 9999) (hmo : st.monthIdx + 1 < 100) (hd : st.day < 100)
    (hh : st.hour < 100) (hmi : st.minute < 100) (hs : st.second < 100) :
    (timestampStr st).length = 14 ∧
    ∀ ch ∈ (timestampStr st).toList, ch.isDigit = true := by
  unfold timestampStr
  constructor
  · simp only [String.length_append]
    rw [jsNatString_four_len _ hy1 hy2, (pad2_spec _ hmo).1, (pad2_spec _ hd).1,
      (pad2_spec _ hh).1, (pad2_spec _ hmi).1, (pad2_spec _ hs).1]
  · intro ch hch
    simp only [toList_append, List.mem_append] at hch
    rcases hch with ((((h1 | h2) | h3) | h4) | h5) | h6
    · exact jsNatString_digits _ ch h1
    · exact (pad2_spec _ hmo).2 ch h2
    · exact (pad2_spec _ hd).2 ch h3
    · exact (pad2_spec _ hh).2 ch h4
    · exact (pad2_spec _ hmi).2 ch h5
    · exact (pad2_spec _ hs).2 ch h6

theorem replaceRunsGo_mem {p : Char → Bool} {rep : Char} :
    ∀ (l : List Char) (b : Bool) (ch : Char),
    ch ∈ replaceRunsGo p rep b l → ch = rep ∨ (ch ∈ l ∧ p ch = false) := by
  intro l
  induction l with
  | nil => intro b ch h; simp [replaceRunsGo] at h
  | cons c cs ih =>
    intro b ch h
    rw [replaceRunsGo] at h
    by_cases hc : p c
    · rw [if_pos hc] at h
      by_cases hb : b = true
      · rw [if_pos hb] at h
        rcases ih true ch h with h1 | ⟨h2, h3⟩
        · exact Or.inl h1
        · exact Or.inr ⟨List.mem_cons_of_mem _ h2, h3⟩
      · rw [if_neg hb] at h
        rcases List.mem_cons.mp h with rfl | hm
        · exact Or.inl rfl
        · rcases ih true ch hm with h1 | ⟨h2, h3⟩
          · exact Or.inl h1
          · exact Or.inr ⟨List.mem_cons_of_mem _ h2, h3⟩
    · rw [if_neg hc] at h
      rcases List.mem_cons.mp h with rfl | hm
      · exact Or.inr ⟨List.mem_cons_self _ _, by simpa using hc⟩
      · rcases ih false ch hm with h1 | ⟨h2, h3⟩
        · exact Or.inl h1
        · exact Or.inr ⟨List.mem_cons_of_mem _ h2, h3⟩

theorem mem_of_mem_dropWhile {p : Char → Bool} {l : List Char} {a : Char}
    (h : a ∈ l.dropWhile p) : a ∈ l :=
  (List.dropWhile_suffix p).sublist.mem h

theorem head?_dropWhile {p : Char → Bool} :
    ∀ (l : List Char) (a : Char), (l.dropWhile p).head? = some a → p a = false := by
  intro l
  induction l with
  | nil => intro a h; simp [List.dropWhile] at h
  | cons c cs ih =>
    intro a h
    rw [List.dropWhile_cons] at h
    by_cases hc : p c
    · rw [if_pos hc] at h
      exact ih a h
    · rw [if_neg hc] at h
      simp only [List.head?_cons, Option.some.injEq] at h
      subst h
      simpa using hc

theorem sanitize_spec (s : String) :
    (sanitize s).length ≤ 60 ∧
    (∀ ch ∈ (sanitize s).toList, ch.isAlphanum = true ∨ ch = '-') ∧
    (sanitize s).toList.head? ≠ some '-' := by
  unfold sanitize
  dsimp only []
  rw [String.length_mk]
  refine ⟨by rw [List.length_take]; omega, ?_, ?_⟩
  · intro ch hch
    have h0 : ch ∈ ((((replaceRuns (fun c => c = '-') '-'
        (replaceRuns (fun c => !c.isAlphanum) '-' (jsTrim s).toList)).dropWhile
        (fun c => c = '-')).reverse.dropWhile (fun c => c = '-')).reverse).take
          60 := hch
    have h1 := List.mem_of_mem_take h0
    rw [List.mem_reverse] at h1
    have h2 := mem_of_mem_dropWhile h1
    rw [List.mem_reverse] at h2
    have h3 := mem_of_mem_dropWhile h2
    rcases replaceRunsGo_mem _ _ _ h3 with h4 | ⟨h4, _⟩
    · exact Or.inr h4
    · rcases replaceRunsGo_mem _ _ _ h4 with h5 | ⟨_, h6⟩
      · exact Or.inr h5
      · exact Or.inl (by simpa using h6)
  · intro hcon
    set m := (replaceRuns (fun c => c = '-') '-'
      (replaceRuns (fun c => !c.isAlphanum) '-' (jsTrim s).toList)).dropWhile
      (fun c => c = '-') with hm
    have hcon2 : (((m.reverse.dropWhile (fun c => c = '-')).reverse).take
        60).head? = some '-' := hcon
    have hpre : (m.reverse.dropWhile (fun c => c = '-')).reverse <+: m := by
      have hsfx := List.dropWhile_suffix (l := m.reverse) (fun c => c = '-')
      have hp := ( List.reverse_prefix).mpr hsfx
      rwa [List.reverse_reverse] at hp
    obtain ⟨t, ht⟩ := hpre
    cases hcase : (m.reverse.dropWhile (fun c => c = '-')).reverse with
    | nil =>
      rw [hcase] at hcon2
      simp at hcon2
    | cons a tl =>
      rw [hcase] at hcon2
      have hha : some a = some '-' := by
        rw [show ((((a :: tl).take 60)).head?) = some a from rfl] at hcon2
        exact hcon2
      injection hha with hha
      have hma : m.head? = some a := by
        rw [hcase] at ht
        rw [show m.head? = ((a :: tl) ++ t).head? by rw [ht]]
        rfl
      have hfalse := head?_dropWhile _ a hma
      rw [hha] at hfalse
      simp at hfalse

theorem string_length_pos_of_ne (s : String) (h : s ≠ "") : 0 < s.length := by
  cases s with
  | mk d =>
    cases d with
    | nil => exact absurd rfl h
    | cons c cs => simp

theorem joinUnderscore_ne_empty (p : String) (ps : List String) (hp : p ≠ "") :
    joinUnderscore (p :: ps) ≠ "" := by
  cases ps with
  | nil => exact hp
  | cons q rest =>
    intro hcon
    have hlen := congrArg String.length hcon
    rw [show joinUnderscore (p :: q :: rest) = p ++ "_" ++ joinUnderscore (q :: rest)
      from rfl, String.length_append, String.length_append,
      show ("" : String).length = 0 from rfl] at hlen
    have hppos := string_length_pos_of_ne p hp
    omega

/-! ## C10: target file name shape -/

/-- **C10, counterexample.**  `sanitize` strips leading and trailing
hyphens *before* capping at 60 characters, so the cap can re-expose a
trailing hyphen: a 61-character village tag whose 60th character is a
hyphen sanitizes to a segment ending in `-`, and the built file name
contains that non-interior hyphen. -/
theorem C10_sanitize_counterexample :
    (sanitize (String.mk (List.replicate 59 'a') ++ "-b")).toList.getLast? =
      some '-' ∧
    (sanitize (String.mk (List.replicate 59 'a') ++ "-b")).length = 60 ∧
    buildTargetFileName (some "p.jpg") (String.mk (List.replicate 59 'a') ++ "-b")
      ⟨2025, 0, 1, 0, 0, 0⟩ =
      "20250101000000_" ++ String.mk (List.replicate 59 'a') ++ "-_p.jpg" := by
  decide

/-- **C10, amended.**  For realistic timestamps (4-digit year,
two-digit month/day/hour/minute/second fields), the built name starts
with the 14-digit compact timestamp followed by an underscore and a
non-empty remainder; when both the village tag and the original base
name sanitize to the empty string the base falls back to the literal
`upload`; the extension, when present, is appended lower-cased; and
every sanitized segment is at most 60 characters, contains only
alphanumerics and hyphens, and never starts with a hyphen (a trailing
hyphen is possible when the 60-character cap cuts just after one,
since stripping happens before the cap). -/
theorem C10_buildTargetFileName_shape (fileName : Option String)
    (villageValue : String) (st : Stamp6) (hy1 : 1000 ≤ st.year)
    (hy2 : st.year ≤ 9999) (hmo : st.monthIdx + 1 < 100) (hd : st.day < 100)
    (hh : st.hour < 100) (hmi : st.minute < 100) (hs : st.second < 100) :
    (∃ rest, buildTargetFileName fileName villageValue st =
        timestampStr st ++ "_" ++ rest ∧ rest ≠ "") ∧
    (timestampStr st).length = 14 ∧
    (∀ ch ∈ (timestampStr st).toList, ch.isDigit = true) ∧
    (sanitize villageValue = "" →
      sanitize (splitExtension (fileName.getD "photo")).1 = "" →
      buildTargetFileName fileName villageValue st =
        timestampStr st ++ "_" ++ "upload" ++
          (if (splitExtension (fileName.getD "photo")).2 = "" then ""
           else "." ++ jsToLower (splitExtension (fileName.getD "photo")).2)) ∧
    ((splitExtension (fileName.getD "photo")).2 ≠ "" →
      ∃ pre, buildTargetFileName fileName villageValue st =
        pre ++ ("." ++ jsToLower (splitExtension (fileName.getD "photo")).2)) ∧
    ∀ s2, (sanitize s2).length ≤ 60 ∧
      (∀ ch ∈ (sanitize s2).toList, ch.isAlphanum = true ∨ ch = '-') ∧
      (sanitize s2).toList.head? ≠ some '-' := by
  have hdef : buildTargetFileName fileName villageValue st =
      timestampStr st ++ "_" ++
        (if (([villageValue, (splitExtension (fileName.getD "photo")).1].map
            sanitize).filter (fun p => p ≠ "")).isEmpty then "upload"
         else joinUnderscore (([villageValue,
            (splitExtension (fileName.getD "photo")).1].map sanitize).filter
            (fun p => p ≠ ""))) ++
        (if (splitExtension (fileName.getD "photo")).2 = "" then ""
         else "." ++ jsToLower (splitExtension (fileName.getD "photo")).2) := rfl
  refine ⟨?_, (timestampStr_spec st hy1 hy2 hmo hd hh hmi hs).1,
    (timestampStr_spec st hy1 hy2 hmo hd hh hmi hs).2, ?_, ?_, sanitize_spec⟩
  · refine ⟨_, by rw [hdef, String.append_assoc], ?_⟩
    intro hcon
    have hlen := congrArg String.length hcon
    rw [String.length_append, show ("" : String).length = 0 from rfl] at hlen
    have hsbpos : 0 < (if (([villageValue,
        (splitExtension (fileName.getD "photo")).1].map sanitize).filter
        (fun p => p ≠ "")).isEmpty then "upload"
      else joinUnderscore (([villageValue,
        (splitExtension (fileName.getD "photo")).1].map sanitize).filter
        (fun p => p ≠ ""))).length := by
      by_cases hemp : (([villageValue,
          (splitExtension (fileName.getD "photo")).1].map sanitize).filter
          (fun p => p ≠ "")).isEmpty
      · rw [if_pos hemp]
        decide
      · rw [if_neg hemp]
        cases hc : ([villageValue,
            (splitExtension (fileName.getD "photo")).1].map sanitize).filter
            (fun p => p ≠ "") with
        | nil => rw [hc] at hemp; exact absurd rfl hemp
        | cons p ps =>
          have hpmem : p ∈ ([villageValue,
              (splitExtension (fileName.getD "photo")).1].map sanitize).filter
              (fun p => p ≠ "") := by
            rw [hc]
            exact List.mem_cons_self p ps
          have hpne : p ≠ "" := by
            rw [List.mem_filter] at hpmem
            simpa using hpmem.2
          exact string_length_pos_of_ne _ (joinUnderscore_ne_empty p ps hpne)
    omega
  · intro h1 h2
    rw [hdef]
    congr 1
    congr 1
    simp only [List.map_cons, List.map_nil, h1, h2]
    decide
  · intro hne
    refine ⟨timestampStr st ++ "_" ++
      (if (([villageValue, (splitExtension (fileName.getD "photo")).1].map
          sanitize).filter (fun p => p ≠ "")).isEmpty then "upload"
       else joinUnderscore (([villageValue,
          (splitExtension (fileName.getD "photo")).1].map sanitize).filter
          (fun p => p ≠ ""))), ?_⟩
    rw [hdef, if_neg hne]

/-- Witness for C10 (amended): a concrete stamp has a 14-character
all-digit timestamp prefix. -/
theorem C10_buildTargetFileName_shape_witness :
    (timestampStr ⟨2025, 0, 1, 0, 0, 0⟩).length = 14 :=
  (C10_buildTargetFileName_shape (some "a.jpg") "Village" ⟨2025, 0, 1, 0, 0, 0⟩
    (by decide) (by decide) (by decide) (by decide) (by decide) (by decide)
    (by decide)).2.1

end MlcRecon
